import Mathlib

/-!
Verification of the epidemic simulation engine of the
`communicable-disease-app` repository, shallowly embedded in Lean 4.

Real-number arithmetic of the Python source (floats) is modelled with
exact rationals `ℚ`; the claims under consideration are either exact
algebraic identities (conservation, closed forms) or integer/graph facts,
so this embedding is faithful for them.  Python's `ZeroDivisionError` is
modelled by `Option`-returning definitions at the places where the source
divides by a user-supplied quantity.  The stochastic source
`np.random.rand()` is modelled as an injected stream `rand : ℕ → ℚ`
together with an explicit draw counter that advances by one at every
draw, exactly in the order the Python code performs its draws.
-/

namespace CommDisease

/-! ## Python primitives -/

/-- Python `int(q)` for a real argument truncates toward zero. -/
def pyInt (q : ℚ) : ℤ := if q < 0 then ⌈q⌉ else ⌊q⌋

/-! ## ReproductionModel

`src/1_Herd_Immunity.py` line 48 computes `HIT = 1 - (1 / R0)` with no
guard; in Python this raises `ZeroDivisionError` exactly when `R0 = 0`,
modelled here by the `none` branch. -/

/-- `HIT` from `src/1_Herd_Immunity.py` line 48: `1 - (1 / R0)`,
`none` models the `ZeroDivisionError` at `R0 = 0`. -/
def HIT (R0 : ℚ) : Option ℚ := if R0 = 0 then none else some (1 - 1 / R0)

/-- Effective reproduction number of `src/pages/4_Spread_Visualization.py`
lines 79-80: `Re = R0_base * (1 - vacc_eff/100) * (1 - mask_eff/100) *
(1 - dist_eff/100)` followed by `Re = max(0.1, Re)`. -/
def Re_spread (R0_base vacc_eff mask_eff dist_eff : ℚ) : ℚ :=
  max (1 / 10) (R0_base * (1 - vacc_eff / 100) * (1 - mask_eff / 100) * (1 - dist_eff / 100))

/-- Effective reproduction number of `src/1_Herd_Immunity.py` line 67:
`Re = R0 * (1 - coverage / 100)` — note: no floor is applied there. -/
def Re_herd (R0 coverage : ℚ) : ℚ := R0 * (1 - coverage / 100)

/-! ## GenerationGrowthSimulator

`src/pages/2_Disease_Spread.py` lines 60-63 (and the twin loops in
`3_Vaccine_Impact.py` lines 135-140 and `4_Spread_Visualization.py`
lines 100-102): `infected = [1]`, then for each generation
`infected.append(infected[-1] * R0)`. -/

/-- The `infected` list after running the growth loop for `n` generations
with multiplier `m`.  `getLastD _ 0` models Python's `infected[-1]`
(the list is never empty, so the default is never consulted). -/
def infectedSeries (m : ℚ) : ℕ → List ℚ
  | 0 => [1]
  | g + 1 =>
    let prev := infectedSeries m g
    prev ++ [prev.getLastD 0 * m]

theorem infectedSeries_length (m : ℚ) (n : ℕ) : (infectedSeries m n).length = n + 1 := by
  induction n with
  | zero => rfl
  | succ k ih => simp [infectedSeries, ih]

theorem infectedSeries_getLastD (m : ℚ) (n : ℕ) :
    (infectedSeries m n).getLastD 0 = m ^ n := by
  induction n with
  | zero => simp [infectedSeries]
  | succ k ih =>
    simp only [infectedSeries, List.getLastD_concat]
    rw [ih, pow_succ]

theorem infectedSeries_getD (m : ℚ) (n k : ℕ) (hk : k ≤ n) :
    (infectedSeries m n).getD k 0 = m ^ k := by
  induction n with
  | zero =>
    interval_cases k
    simp [infectedSeries]
  | succ j ih =>
    rcases Nat.lt_or_ge k (j + 1) with h | h
    · have hlen : k < (infectedSeries m j).length := by
        rw [infectedSeries_length]; exact h
      simp only [infectedSeries]
      rw [List.getD_append _ _ _ _ hlen]
      exact ih (Nat.lt_succ_iff.mp h)
    · have hk' : k = j + 1 := le_antisymm hk h
      subst hk'
      simp only [infectedSeries]
      rw [List.getD_append_right _ _ _ _ (by rw [infectedSeries_length])]
      rw [infectedSeries_length, Nat.sub_self]
      show (infectedSeries m j).getLastD 0 * m = m ^ (j + 1)
      rw [infectedSeries_getLastD, pow_succ]

/-! ## SEIRIntegrator

`src/pages/4_Spread_Visualization.py` lines 413-435 (and the identical
tab-2 loop in `3_Vaccine_Impact.py` lines 196-219).  The source hardcodes
`N = 1_000_000`, `I0, E0 = 10, 5`; we keep them as parameters so the
claims' quantification over them is statable, and instantiate with the
hardcoded values in witnesses. -/

/-- One day of SEIR compartments. -/
structure SEIR where
  S : ℚ
  E : ℚ
  I : ℚ
  R : ℚ
deriving DecidableEq, Repr

/-- One step of the update loop (`4_Spread_Visualization.py` lines 427-435):
`new_E = beta*S*I/N`, `new_I = sigma*E`, `new_R = gamma*I`, then the four
compartment updates. -/
def seirStep (beta sigma gamma NQ : ℚ) (st : SEIR) : SEIR :=
  let newE := beta * st.S * st.I / NQ
  let newI := sigma * st.E
  let newR := gamma * st.I
  ⟨st.S - newE, st.E + newE - newI, st.I + newI - newR, st.R + newR⟩

/-- Day-0 state: `S0 = N - I0 - E0`, `E=[E0]`, `I=[I0]`, `R=[0]`. -/
def seirInit (NQ E0 I0 : ℚ) : SEIR := ⟨NQ - I0 - E0, E0, I0, 0⟩

/-- The compartment state after `t` iterations of the update loop. -/
def seirOrbit (beta sigma gamma NQ : ℚ) (init : SEIR) : ℕ → SEIR
  | 0 => init
  | t + 1 => seirStep beta sigma gamma NQ (seirOrbit beta sigma gamma NQ init t)

/-- The full simulation.  The rate constants are
`beta = Re / infectious_period`, `sigma = 1 / incubation`,
`gamma = 1 / infectious_period` (`4_Spread_Visualization.py` lines
421-423); Python raises `ZeroDivisionError` there exactly when
`infectious_period = 0` or `incubation = 0`, modelled by `none`.
The returned list is element-for-element the four parallel Python lists
(entry `t` is day `t`), of length `days + 1`. -/
def seirSim (Re incubation infectious NQ E0 I0 : ℚ) (days : ℕ) : Option (List SEIR) :=
  if infectious = 0 ∨ incubation = 0 then none
  else some ((List.range (days + 1)).map
    (seirOrbit (Re / infectious) (1 / incubation) (1 / infectious) NQ (seirInit NQ E0 I0)))

/-- The compartment total of a state. -/
def seirTotal (st : SEIR) : ℚ := st.S + st.E + st.I + st.R

theorem seirTotal_step (beta sigma gamma NQ : ℚ) (st : SEIR) :
    seirTotal (seirStep beta sigma gamma NQ st) = seirTotal st := by
  simp only [seirTotal, seirStep]
  ring

theorem seirTotal_orbit (beta sigma gamma NQ : ℚ) (init : SEIR) (t : ℕ) :
    seirTotal (seirOrbit beta sigma gamma NQ init t) = seirTotal init := by
  induction t with
  | zero => rfl
  | succ k ih => rw [seirOrbit, seirTotal_step, ih]

theorem seirTotal_init (NQ E0 I0 : ℚ) : seirTotal (seirInit NQ E0 I0) = NQ := by
  simp only [seirTotal, seirInit]
  ring

/-! ## Claim theorems for the scalar components -/

/-- C4: for every SEIR input with positive incubation and infectious
periods and every day `t ≤ num_days`, the compartment sum
`S[t] + E[t] + I[t] + R[t]` equals the total population `N` exactly
(in the exact-rational model of the floating-point loop), because each
step's update removes from one compartment exactly what it adds to the
next. -/
theorem C4_population_conserved (NQ E0 I0 Re incubation infectious : ℚ) (days t : ℕ)
    (hinc : 0 < incubation) (hinf : 0 < infectious) (ht : t ≤ days) :
    ∃ out s, seirSim Re incubation infectious NQ E0 I0 days = some out ∧
      out[t]? = some s ∧ s.S + s.E + s.I + s.R = NQ := by
  have hcond : ¬(infectious = 0 ∨ incubation = 0) := by
    push_neg
    exact ⟨ne_of_gt hinf, ne_of_gt hinc⟩
  refine ⟨(List.range (days + 1)).map
      (seirOrbit (Re / infectious) (1 / incubation) (1 / infectious) NQ (seirInit NQ E0 I0)),
    seirOrbit (Re / infectious) (1 / incubation) (1 / infectious) NQ
      (seirInit NQ E0 I0) t, ?_, ?_, ?_⟩
  · rw [seirSim, if_neg hcond]
  · rw [List.getElem?_map, List.getElem?_range (by omega)]
    rfl
  · have h1 := seirTotal_orbit (Re / infectious) (1 / incubation) (1 / infectious) NQ
      (seirInit NQ E0 I0) t
    rw [seirTotal_init] at h1
    simpa [seirTotal] using h1

/-- Witness for C4 at the source's hardcoded population
(`N = 1000000`, `E0 = 5`, `I0 = 10`) with incubation 4, infectious
period 6, `Re = 9/10`, `t = 2 ≤ 3 = days`. -/
theorem C4_population_conserved_witness :
    (0 : ℚ) < 4 ∧ (0 : ℚ) < 6 ∧ 2 ≤ 3 ∧
    (∃ out s, seirSim (9/10) 4 6 1000000 5 10 3 = some out ∧
      out[2]? = some s ∧ s.S + s.E + s.I + s.R = 1000000) :=
  ⟨by norm_num, by norm_num, by norm_num,
    C4_population_conserved 1000000 5 10 (9/10) 4 6 3 2 (by norm_num) (by norm_num)
      (by norm_num)⟩

/-- C5 counterexample: the claim says the effective reproduction number
returned is always floored at `0.1`, citing also `src/1_Herd_Immunity.py`
line 67 — but that computation applies no floor: at `R0 = 15`,
`coverage = 100` it returns `0 < 0.1`. -/
theorem C5_floor_counterexample :
    Re_herd 15 100 = 0 ∧ ¬ (1 / 10 ≤ Re_herd 15 100) := by
  constructor
  · norm_num [Re_herd]
  · norm_num [Re_herd]

/-- C5 (amended): the Spread-Visualization computation
(`4_Spread_Visualization.py` lines 79-80) does return
`R0 × ∏(1 − effect_i)` floored at `0.1`, hence is always `≥ 0.1`; the
Herd-Immunity computation (`1_Herd_Immunity.py` line 67) applies no
floor, returning the bare product `R0 × (1 − coverage/100)`, which can
be `0`. -/
theorem C5_floor_amended :
    (∀ R0 v m d : ℚ,
        Re_spread R0 v m d =
          max (1 / 10) (R0 * (1 - v / 100) * (1 - m / 100) * (1 - d / 100)) ∧
        1 / 10 ≤ Re_spread R0 v m d) ∧
    (∀ R0 c : ℚ, Re_herd R0 c = R0 * (1 - c / 100)) ∧
    (∃ R0 c : ℚ, Re_herd R0 c < 1 / 10) := by
  refine ⟨fun R0 v m d => ⟨rfl, le_max_left _ _⟩, fun R0 c => rfl, 15, 100, ?_⟩
  norm_num [Re_herd]

/-- C6 counterexample: the claim says every engine operation fails fast
on `incubation_period ≤ 0` — but the SEIR computation accepts the
negative incubation period `-1` and runs to completion. -/
theorem C6_failfast_counterexample :
    (seirSim (9/10) (-1) 6 1000000 5 10 3).isSome = true := by
  rw [seirSim, if_neg (by norm_num)]
  rfl

/-- C6 (amended): no engine operation validates its parameters; the SEIR
computation fails (Python `ZeroDivisionError` while deriving the rate
constants, before the update loop) exactly when `infectious_period = 0`
or `incubation_period = 0`, and every other input — negative periods
included — is silently computed through (the UI sliders restrict ranges
instead). -/
theorem C6_failfast_amended (Re incubation infectious NQ E0 I0 : ℚ) (days : ℕ) :
    seirSim Re incubation infectious NQ E0 I0 days = none ↔
      infectious = 0 ∨ incubation = 0 := by
  constructor
  · intro h
    by_contra hc
    rw [seirSim, if_neg hc] at h
    exact Option.some_ne_none _ h
  · intro h
    rw [seirSim, if_pos h]

/-- C7 counterexample: the claim says `herd_immunity_threshold` fails (or
is undefined) for every `R0 ≤ 1` — but the source computes
`HIT = 1 - (1 / R0)` unguarded, and at `R0 = 1 ≤ 1` it returns the value
`0` rather than failing. -/
theorem C7_hit_counterexample : HIT 1 = some 0 := by
  norm_num [HIT]

/-- C7 (amended): the source computes `1 − 1/R0` unconditionally for every
`R0 ≠ 0` (the only failure is the division by zero at `R0 = 0`); for
`R0 ≤ 1` the returned threshold is simply non-positive, and only for
`R0 > 1` is it a positive fraction. -/
theorem C7_hit_amended (R0 : ℚ) :
    (R0 ≠ 0 → HIT R0 = some (1 - 1 / R0)) ∧
    HIT 0 = none ∧
    (R0 ≤ 1 → R0 ≠ 0 → 1 - 1 / R0 ≤ 0 ∨ R0 < 0) ∧
    (1 < R0 → 0 < 1 - 1 / R0 ∧ 1 - 1 / R0 < 1) := by
  refine ⟨fun h => by simp [HIT, h], by simp [HIT], fun hle hne => ?_, fun hgt => ?_⟩
  · rcases lt_trichotomy R0 0 with h | h | h
    · exact Or.inr h
    · exact absurd h hne
    · left
      have h1 : 1 ≤ 1 / R0 := by
        rw [le_div_iff₀ h]
        linarith
      linarith
  · have h0 : 0 < R0 := lt_trans one_pos hgt
    constructor
    · have h1 : 1 / R0 < 1 := (div_lt_one h0).mpr hgt
      linarith
    · have h2 : 0 < 1 / R0 := by positivity
      linarith

/-- Witness for C7 (amended) at `R0 = 2`. -/
theorem C7_hit_witness :
    HIT 2 = some (1 - 1 / 2) ∧ 0 < 1 - 1 / (2 : ℚ) :=
  ⟨(C7_hit_amended 2).1 (by norm_num), ((C7_hit_amended 2).2.2.2 (by norm_num)).1⟩

/-- C8: the generation-growth loop started from `[1]` returns, after `n`
generations with multiplier `m`, a series of length `n + 1` whose entry at
every index `k ≤ n` is exactly `m ^ k`; in particular zero generations
yield `[1]`. -/
theorem C8_growth_series (m : ℚ) (n k : ℕ) (hk : k ≤ n) :
    (infectedSeries m n).length = n + 1 ∧
    (infectedSeries m n).getD k 0 = m ^ k ∧
    infectedSeries m 0 = [1] :=
  ⟨infectedSeries_length m n, infectedSeries_getD m n k hk, rfl⟩

/-- Witness for C8 at `m = 2`, `n = 5`, `k = 3`:
the series is `[1, 2, 4, 8, 16, 32]`. -/
theorem C8_growth_series_witness :
    3 ≤ 5 ∧ ((infectedSeries 2 5).length = 5 + 1 ∧
      (infectedSeries 2 5).getD 3 0 = 2 ^ 3 ∧ infectedSeries 2 0 = [1]) :=
  ⟨by norm_num, C8_growth_series 2 5 3 (by norm_num)⟩

/-! ## TransmissionTreeGenerator

`generate_tree` from `src/pages/4_Spread_Visualization.py` lines 191-229;
the copy in `src/pages/3_Vaccine_Impact.py` lines 261-296 is identical
except that it does not store the `parent` attribute on nodes (we keep the
richer variant).  Randomness (`np.random.rand()`) is an injected stream
`rand : ℕ → ℚ` read at an explicit cursor `rk` that advances by one per
draw, in the exact order the Python code draws: one superspreader draw per
expanded parent, then one vaccination draw per created child. -/

/-- A graph node: `G.add_node(node_id, generation=gen, parent=parent,
vacc=vacc_status, super=is_super)`. -/
structure TransNode where
  id : ℕ
  generation : ℕ
  parent : Option ℕ
  vacc : Bool
  super : Bool
deriving DecidableEq, Repr

/-- The `nx.DiGraph` under construction together with the `node_id`
counter: nodes and edges in insertion order. -/
structure TreeState where
  nodes : List TransNode
  edges : List (ℕ × ℕ)
  nextId : ℕ
deriving DecidableEq, Repr

/-- The root node: `G.add_node(0, generation=0, parent=None, vacc=False,
super=False)`. -/
def rootNode : TransNode := ⟨0, 0, none, false, false⟩

/-- `newR = int(Re * (3 if is_super else 1)); newR = max(1, newR)` —
the number of offspring an expanded parent produces. -/
def effectiveR (Re : ℚ) (isSuper : Bool) : ℕ :=
  (max 1 (pyInt (Re * (if isSuper then 3 else 1)))).toNat

/-- `G.nodes[parent]["vacc"]`: the `vacc` attribute of the (unique) node
with the given id; `false` if absent (the lookup never misses in the
source). -/
def vaccOf (st : TreeState) (p : ℕ) : Bool :=
  ((st.nodes.find? (fun nd => nd.id == p)).map (fun nd => nd.vacc)).getD false

/-- The inner `for _ in range(newR)` loop: create up to `count` children of
`parent` in generation `g`, each first budget-checked
(`if node_id > max_nodes: return G`), then vaccination-sampled, added to
the graph, linked to the parent, and appended to the next frontier iff
unvaccinated.  Returns `((state, next frontier, rng cursor), early)` where
`early = true` models the early `return G`. -/
def addChildren (rand : ℕ → ℚ) (vaccPct : ℚ) (maxNodes g parent : ℕ) (isSuper : Bool) :
    ℕ → TreeState → List ℕ → ℕ → (TreeState × List ℕ × ℕ) × Bool
  | 0, st, nf, rk => ((st, nf, rk), false)
  | count + 1, st, nf, rk =>
    if maxNodes < st.nextId then ((st, nf, rk), true)
    else
      let vaccinated : Bool := decide (rand rk < vaccPct / 100)
      let child : TransNode := ⟨st.nextId, g, some parent, vaccinated, isSuper⟩
      let st' : TreeState :=
        ⟨st.nodes ++ [child], st.edges ++ [(parent, st.nextId)], st.nextId + 1⟩
      let nf' := if vaccinated then nf else nf ++ [st.nextId]
      addChildren rand vaccPct maxNodes g parent isSuper count st' nf' (rk + 1)

/-- The `for parent in current` loop over one generation's frontier:
vaccinated parents are skipped (`continue`); otherwise a fresh
superspreader draw fixes the offspring count and the children are
created.  The early-return flag propagates outward. -/
def processFrontier (rand : ℕ → ℚ) (Re ssPct vaccPct : ℚ) (maxNodes g : ℕ) :
    List ℕ → TreeState → List ℕ → ℕ → (TreeState × List ℕ × ℕ) × Bool
  | [], st, nf, rk => ((st, nf, rk), false)
  | p :: ps, st, nf, rk =>
    if vaccOf st p then processFrontier rand Re ssPct vaccPct maxNodes g ps st nf rk
    else
      let isSuper : Bool := decide (rand rk < ssPct / 100)
      let out := addChildren rand vaccPct maxNodes g p isSuper (effectiveR Re isSuper)
        st nf (rk + 1)
      if out.2 then out
      else processFrontier rand Re ssPct vaccPct maxNodes g ps out.1.1 out.1.2.1 out.1.2.2

/-- The `for gen in range(1, max_gen + 1)` loop: `g` is the generation
about to be created, `rem` the number of generations still to build.
An early return inside the frontier loop returns the graph immediately;
otherwise `current = next_gen` and the loop continues. -/
def genLoop (rand : ℕ → ℚ) (Re ssPct vaccPct : ℚ) (maxNodes : ℕ) :
    ℕ → ℕ → List ℕ → TreeState → ℕ → TreeState
  | _, 0, _, st, _ => st
  | g, rem + 1, frontier, st, rk =>
    let out := processFrontier rand Re ssPct vaccPct maxNodes g frontier st [] rk
    if out.2 then out.1.1
    else genLoop rand Re ssPct vaccPct maxNodes (g + 1) rem out.1.2.1 out.1.1 out.1.2.2

/-- `generate_tree(Re, max_gen, superspreader_pct, vacc_pct,
max_nodes=2000)`: root at generation 0, then breadth-first generation
expansion. -/
def generate_tree (rand : ℕ → ℚ) (Re : ℚ) (maxGen : ℕ) (ssPct vaccPct : ℚ)
    (maxNodes : ℕ) : TreeState :=
  genLoop rand Re ssPct vaccPct maxNodes 1 maxGen [0] ⟨[rootNode], [], 1⟩ 0

/-- Number of outgoing edges of node `p` (its children in the DiGraph). -/
def childCount (st : TreeState) (p : ℕ) : ℕ :=
  (st.edges.filter (fun e => e.1 == p)).length

/-- Decidable check: no edge leaves a vaccinated node. -/
def vaccLeafCheck (st : TreeState) : Bool :=
  st.edges.all fun e => st.nodes.all fun nd => !(nd.id == e.1) || (nd.vacc == false)

/-- Decidable check: any two edges out of the same parent lead to children
with the same `super` attribute. -/
def sibSuperCheck (st : TreeState) : Bool :=
  st.edges.all fun e1 => st.edges.all fun e2 =>
    !(e1.1 == e2.1) ||
      (st.nodes.all fun n1 => st.nodes.all fun n2 =>
        !(n1.id == e1.2) || !(n2.id == e2.2) || (n1.super == n2.super))

/-- Decidable check: the node with id 0 (the root) is neither a
superspreader nor vaccinated. -/
def rootAttrCheck (st : TreeState) : Bool :=
  st.nodes.all fun nd => !(nd.id == 0) || (nd.super == false && nd.vacc == false)

/-! ### Structural characterization of the inner child-creation loop -/

theorem addChildren_spec (rand : ℕ → ℚ) (vaccPct : ℚ) (maxNodes g parent : ℕ)
    (isSuper : Bool) (count : ℕ) :
    ∀ st nf rk, ∃ news : List TransNode,
      (addChildren rand vaccPct maxNodes g parent isSuper count st nf rk).1.1.nodes
          = st.nodes ++ news ∧
      (addChildren rand vaccPct maxNodes g parent isSuper count st nf rk).1.1.edges
          = st.edges ++ news.map (fun nd => (parent, nd.id)) ∧
      (addChildren rand vaccPct maxNodes g parent isSuper count st nf rk).1.1.nextId
          = st.nextId + news.length ∧
      (addChildren rand vaccPct maxNodes g parent isSuper count st nf rk).1.2.1
          = nf ++ (news.filter (fun nd => !nd.vacc)).map (fun nd => nd.id) ∧
      news.map (fun nd => nd.id) = List.range' st.nextId news.length ∧
      (∀ nd ∈ news, nd.generation = g ∧ nd.parent = some parent ∧ nd.super = isSuper) ∧
      ((addChildren rand vaccPct maxNodes g parent isSuper count st nf rk).2 = true →
        maxNodes <
          (addChildren rand vaccPct maxNodes g parent isSuper count st nf rk).1.1.nextId) ∧
      ((addChildren rand vaccPct maxNodes g parent isSuper count st nf rk).2 = false →
        news.length = count) ∧
      (st.nextId ≤ maxNodes + 1 →
        (addChildren rand vaccPct maxNodes g parent isSuper count st nf rk).1.1.nextId
          ≤ maxNodes + 1) ∧
      (vaccPct = 0 → (∀ k, 0 ≤ rand k) → ∀ nd ∈ news, nd.vacc = false) := by
  induction count with
  | zero =>
    intro st nf rk
    refine ⟨[], by simp [addChildren], by simp [addChildren], by simp [addChildren],
      by simp [addChildren], rfl, by simp, ?_, fun _ => rfl, fun h => by simpa [addChildren],
      by simp⟩
    intro h
    simp [addChildren] at h
  | succ c ih =>
    intro st nf rk
    by_cases hb : maxNodes < st.nextId
    · refine ⟨[], ?_, ?_, ?_, ?_, rfl, by simp, ?_, ?_, ?_, by simp⟩
      all_goals simp only [addChildren, if_pos hb]
      · simp
      · simp
      · simp
      · simp
      · intro _; exact hb
      · intro h; exact absurd h (by simp)
      · intro h; exact h
    · obtain ⟨news', h1, h2, h3, h4, h5, h6, h7, h8, h9, h10⟩ :=
        ih ⟨st.nodes ++ [⟨st.nextId, g, some parent,
              decide (rand rk < vaccPct / 100), isSuper⟩],
            st.edges ++ [(parent, st.nextId)], st.nextId + 1⟩
          (if decide (rand rk < vaccPct / 100) then nf else nf ++ [st.nextId]) (rk + 1)
      have hstep :
          addChildren rand vaccPct maxNodes g parent isSuper (c + 1) st nf rk =
            addChildren rand vaccPct maxNodes g parent isSuper c
              ⟨st.nodes ++ [⟨st.nextId, g, some parent,
                  decide (rand rk < vaccPct / 100), isSuper⟩],
               st.edges ++ [(parent, st.nextId)], st.nextId + 1⟩
              (if decide (rand rk < vaccPct / 100) then nf else nf ++ [st.nextId]) (rk + 1) := by
        simp only [addChildren, if_neg hb]
      rw [hstep]
      refine ⟨⟨st.nextId, g, some parent, decide (rand rk < vaccPct / 100), isSuper⟩ :: news',
        ?_, ?_, ?_, ?_, ?_, ?_, h7, ?_, ?_, ?_⟩
      · rw [h1]; simp
      · rw [h2]; simp
      · rw [h3]; simp; omega
      · rw [h4]
        by_cases hv : decide (rand rk < vaccPct / 100) = true
        · simp [hv]
        · simp only [Bool.not_eq_true] at hv
          simp [hv]
      · simp only [List.map_cons, h5]
        have : st.nextId + 1 = st.nextId + 1 := rfl
        simp [List.range'_succ]
      · intro nd hnd
        rcases List.mem_cons.mp hnd with h | h
        · subst h; exact ⟨rfl, rfl, rfl⟩
        · exact h6 nd h
      · intro hfl
        simp only [List.length_cons]
        rw [h8 hfl]
      · intro hle
        apply h9
        simp only []
        omega
      · intro hv0 hpos nd hnd
        rcases List.mem_cons.mp hnd with h | h
        · subst h
          simp only [decide_eq_false_iff_not]
          rw [hv0]
          norm_num
          exact hpos rk
        · exact h10 hv0 hpos nd h

/-! ### Invariants preserved by the generation loop -/

/-- Ids of the created nodes are exactly `0, …, nextId − 1`, in insertion
order: node ids are handed out consecutively starting after the root. -/
def IdsInv (st : TreeState) : Prop :=
  st.nodes.map (fun nd => nd.id) = List.range' 0 st.nextId

theorem IdsInv.id_lt {st : TreeState} (h : IdsInv st) :
    ∀ nd ∈ st.nodes, nd.id < st.nextId := by
  intro nd hnd
  have hm : nd.id ∈ st.nodes.map (fun nd => nd.id) := List.mem_map_of_mem _ hnd
  rw [h] at hm
  have := List.mem_range'_1.mp hm
  omega

/-- Sibling coherence: two edges out of the same parent lead to children
carrying the same `super` attribute. -/
def SibInv (st : TreeState) : Prop :=
  ∀ e1 ∈ st.edges, ∀ e2 ∈ st.edges, e1.1 = e2.1 →
    ∀ n1 ∈ st.nodes, ∀ n2 ∈ st.nodes, n1.id = e1.2 → n2.id = e2.2 → n1.super = n2.super

/-- Graph part of the loop invariant. -/
structure GraphInv (maxNodes : ℕ) (st : TreeState) : Prop where
  ids : IdsInv st
  pos : 1 ≤ st.nextId
  bound : st.nextId ≤ maxNodes + 1
  root : ∀ nd ∈ st.nodes, nd.id = 0 → nd.super = false ∧ nd.vacc = false
  esrc : ∀ e ∈ st.edges, e.1 < st.nextId
  etgt : ∀ e ∈ st.edges, e.2 < st.nextId
  evacc : ∀ e ∈ st.edges, ∀ nd ∈ st.nodes, nd.id = e.1 → nd.vacc = false
  sib : SibInv st

/-- Frontier part of the loop invariant, for a list of candidate parents:
they are existing unvaccinated nodes with no children yet, listed in
strictly increasing id order. -/
structure FrOk (st : TreeState) (fr : List ℕ) : Prop where
  lt : ∀ p ∈ fr, p < st.nextId
  vacc : ∀ p ∈ fr, ∀ nd ∈ st.nodes, nd.id = p → nd.vacc = false
  fresh : ∀ p ∈ fr, ∀ e ∈ st.edges, e.1 ≠ p
  sorted : fr.Pairwise (· < ·)

theorem news_id_range {news : List TransNode} {s : ℕ}
    (h : news.map (fun nd => nd.id) = List.range' s news.length) :
    ∀ nd ∈ news, s ≤ nd.id ∧ nd.id < s + news.length := by
  intro nd hnd
  have hm : nd.id ∈ news.map (fun nd => nd.id) := List.mem_map_of_mem _ hnd
  rw [h] at hm
  exact List.mem_range'_1.mp hm

theorem news_id_inj {news : List TransNode} {s : ℕ}
    (h : news.map (fun nd => nd.id) = List.range' s news.length) :
    ∀ a ∈ news, ∀ b ∈ news, a.id = b.id → a = b := by
  apply List.inj_on_of_nodup_map
  rw [h]
  exact List.nodup_range' _ _

/-- The state obtained by adding the children `news` of parent `p`. -/
def extendState (st : TreeState) (p : ℕ) (news : List TransNode) : TreeState :=
  ⟨st.nodes ++ news, st.edges ++ news.map (fun nd => (p, nd.id)), st.nextId + news.length⟩

theorem GraphInv_extend {maxNodes g p : ℕ} {st : TreeState} {news : List TransNode}
    {isSuper : Bool}
    (hG : GraphInv maxNodes st)
    (hp_lt : p < st.nextId)
    (hp_vacc : ∀ nd ∈ st.nodes, nd.id = p → nd.vacc = false)
    (hp_fresh : ∀ e ∈ st.edges, e.1 ≠ p)
    (hids : news.map (fun nd => nd.id) = List.range' st.nextId news.length)
    (hattr : ∀ nd ∈ news, nd.generation = g ∧ nd.parent = some p ∧ nd.super = isSuper)
    (hbound : st.nextId + news.length ≤ maxNodes + 1) :
    GraphInv maxNodes (extendState st p news) := by
  have hge := news_id_range hids
  have hlt := hG.ids.id_lt
  constructor
  · show (st.nodes ++ news).map (fun nd => nd.id) = List.range' 0 (st.nextId + news.length)
    rw [List.map_append, hG.ids, hids]
    have := List.range'_append_1 0 st.nextId news.length
    simp only [Nat.zero_add] at this
    rw [this, Nat.add_comm news.length st.nextId]
  · show 1 ≤ st.nextId + news.length
    have := hG.pos
    omega
  · exact hbound
  · intro nd hnd h0
    rcases List.mem_append.mp hnd with h | h
    · exact hG.root nd h h0
    · have := (hge nd h).1
      have := hG.pos
      omega
  · intro e he
    rcases List.mem_append.mp he with h | h
    · have := hG.esrc e h
      show e.1 < st.nextId + news.length
      omega
    · obtain ⟨nd, hnd, rfl⟩ := List.mem_map.mp h
      show p < st.nextId + news.length
      omega
  · intro e he
    rcases List.mem_append.mp he with h | h
    · have := hG.etgt e h
      show e.2 < st.nextId + news.length
      omega
    · obtain ⟨nd, hnd, rfl⟩ := List.mem_map.mp h
      have := (hge nd hnd).2
      exact this
  · intro e he nd hnd hid
    rcases List.mem_append.mp he with h | h
    · rcases List.mem_append.mp hnd with h' | h'
      · exact hG.evacc e h nd h' hid
      · have h1 := hG.esrc e h
        have h2 := (hge nd h').1
        omega
    · obtain ⟨c, hc, rfl⟩ := List.mem_map.mp h
      rcases List.mem_append.mp hnd with h' | h'
      · exact hp_vacc nd h' hid
      · have := (hge nd h').1
        simp only at hid
        omega
  · intro e1 he1 e2 he2 hsrc n1 hn1 n2 hn2 hi1 hi2
    have hnode : ∀ e ∈ news.map (fun nd => (p, nd.id)), ∀ nd ∈ st.nodes ++ news,
        nd.id = e.2 → nd.super = isSuper := by
      intro e he nd hnd hid
      obtain ⟨c, hc, rfl⟩ := List.mem_map.mp he
      simp only at hid
      rcases List.mem_append.mp hnd with h' | h'
      · have := hlt nd h'
        have := (hge c hc).1
        omega
      · exact (hattr nd h').2.2
    rcases List.mem_append.mp he1 with h1 | h1 <;> rcases List.mem_append.mp he2 with h2 | h2
    · -- both edges old: their targets are old ids, so the matched nodes are old
      have ht1 := hG.etgt e1 h1
      have ht2 := hG.etgt e2 h2
      have hn1' : n1 ∈ st.nodes := by
        rcases List.mem_append.mp hn1 with h | h
        · exact h
        · have := (hge n1 h).1
          omega
      have hn2' : n2 ∈ st.nodes := by
        rcases List.mem_append.mp hn2 with h | h
        · exact h
        · have := (hge n2 h).1
          omega
      exact hG.sib e1 h1 e2 h2 hsrc n1 hn1' n2 hn2' hi1 hi2
    · -- e1 old, e2 new: e1's source is p, contradicting freshness of p
      obtain ⟨c, hc, rfl⟩ := List.mem_map.mp h2
      exact absurd (hsrc.trans rfl) (hp_fresh e1 h1)
    · obtain ⟨c, hc, rfl⟩ := List.mem_map.mp h1
      exact absurd (hsrc.symm.trans rfl) (hp_fresh e2 h2)
    · -- both edges new: both children carry `isSuper`
      have hs1 := hnode e1 h1 n1 hn1 hi1
      have hs2 := hnode e2 h2 n2 hn2 hi2
      rw [hs1, hs2]

theorem FrOk_extend_old {st : TreeState} {p : ℕ} {news : List TransNode} {fr : List ℕ}
    (hfr : FrOk st fr)
    (hids : news.map (fun nd => nd.id) = List.range' st.nextId news.length)
    (hnp : p ∉ fr) :
    FrOk (extendState st p news) fr := by
  have hge := news_id_range hids
  constructor
  · intro q hq
    have := hfr.lt q hq
    show q < st.nextId + news.length
    omega
  · intro q hq nd hnd hid
    rcases List.mem_append.mp hnd with h | h
    · exact hfr.vacc q hq nd h hid
    · have := (hge nd h).1
      have := hfr.lt q hq
      omega
  · intro q hq e he
    rcases List.mem_append.mp he with h | h
    · exact hfr.fresh q hq e h
    · obtain ⟨c, hc, rfl⟩ := List.mem_map.mp h
      intro hpe
      simp only at hpe
      exact hnp (by rwa [hpe])
  · exact hfr.sorted

theorem FrOk_extend_new {st : TreeState} {p : ℕ} {news : List TransNode} {nf : List ℕ}
    (hnf : FrOk st nf)
    (hold : ∀ nd ∈ st.nodes, nd.id < st.nextId)
    (hesrc : ∀ e ∈ st.edges, e.1 < st.nextId)
    (hp_lt : p < st.nextId)
    (hids : news.map (fun nd => nd.id) = List.range' st.nextId news.length)
    (hdisj : ∀ q ∈ nf, q < st.nextId)
    (hnp : p ∉ nf) :
    FrOk (extendState st p news)
      (nf ++ (news.filter (fun nd => !nd.vacc)).map (fun nd => nd.id)) := by
  have hge := news_id_range hids
  have hinj := news_id_inj hids
  have hmemnew : ∀ q ∈ (news.filter (fun nd => !nd.vacc)).map (fun nd => nd.id),
      st.nextId ≤ q ∧ q < st.nextId + news.length ∧
        (∀ nd ∈ news, nd.id = q → nd.vacc = false) := by
    intro q hq
    obtain ⟨c, hc, rfl⟩ := List.mem_map.mp hq
    have hc' := List.mem_filter.mp hc
    refine ⟨(hge c hc'.1).1, (hge c hc'.1).2, ?_⟩
    intro nd hnd hid
    have := hinj nd hnd c hc'.1 hid
    subst this
    simpa using hc'.2
  constructor
  · intro q hq
    rcases List.mem_append.mp hq with h | h
    · have := hdisj q h
      show q < st.nextId + news.length
      omega
    · exact (hmemnew q h).2.1
  · intro q hq nd hnd hid
    rcases List.mem_append.mp hq with h | h
    · rcases List.mem_append.mp hnd with h' | h'
      · exact hnf.vacc q h nd h' hid
      · have := (hge nd h').1
        have := hdisj q h
        omega
    · rcases List.mem_append.mp hnd with h' | h'
      · have := hold nd h'
        have := (hmemnew q h).1
        omega
      · exact (hmemnew q h).2.2 nd h' hid
  · intro q hq e he
    rcases List.mem_append.mp hq with h | h
    · rcases List.mem_append.mp he with h' | h'
      · exact hnf.fresh q h e h'
      · obtain ⟨c, hc, rfl⟩ := List.mem_map.mp h'
        intro hpe
        simp only at hpe
        exact hnp (by rwa [hpe])
    · rcases List.mem_append.mp he with h' | h'
      · have := hesrc e h'
        have := (hmemnew q h).1
        omega
      · obtain ⟨c, hc, rfl⟩ := List.mem_map.mp h'
        have := (hmemnew q h).1
        simp only
        omega
  · rw [List.pairwise_append]
    refine ⟨hnf.sorted, ?_, ?_⟩
    · have hsub : List.Sublist ((news.filter (fun nd => !nd.vacc)).map (fun nd => nd.id))
          (news.map (fun nd => nd.id)) :=
        (List.filter_sublist news).map _
      rw [hids] at hsub
      exact (List.pairwise_lt_range' _ _).sublist hsub
    · intro a ha b hb
      have := hdisj a ha
      have := (hmemnew b hb).1
      omega

theorem TreeState.eq_of_fields {s t : TreeState} (h1 : s.nodes = t.nodes)
    (h2 : s.edges = t.edges) (h3 : s.nextId = t.nextId) : s = t := by
  cases s
  cases t
  simp_all

theorem FrOk.tail {st : TreeState} {p : ℕ} {ps : List ℕ} (h : FrOk st (p :: ps)) :
    FrOk st ps := by
  refine ⟨?_, ?_, ?_, h.sorted.of_cons⟩
  · intro q hq
    exact h.lt q (List.mem_cons_of_mem p hq)
  · intro q hq
    exact h.vacc q (List.mem_cons_of_mem p hq)
  · intro q hq
    exact h.fresh q (List.mem_cons_of_mem p hq)

theorem processFrontier_inv (rand : ℕ → ℚ) (Re ssPct vaccPct : ℚ) (maxNodes g : ℕ) :
    ∀ (ps : List ℕ) (st : TreeState) (nf : List ℕ) (rk : ℕ),
      GraphInv maxNodes st → FrOk st ps → FrOk st nf → (∀ p ∈ ps, p ∉ nf) →
      GraphInv maxNodes
          (processFrontier rand Re ssPct vaccPct maxNodes g ps st nf rk).1.1 ∧
        FrOk (processFrontier rand Re ssPct vaccPct maxNodes g ps st nf rk).1.1
          (processFrontier rand Re ssPct vaccPct maxNodes g ps st nf rk).1.2.1 ∧
        st.nextId ≤ (processFrontier rand Re ssPct vaccPct maxNodes g ps st nf rk).1.1.nextId ∧
        ((processFrontier rand Re ssPct vaccPct maxNodes g ps st nf rk).2 = true →
          maxNodes < (processFrontier rand Re ssPct vaccPct maxNodes g ps st nf rk).1.1.nextId)
  | [] => by
    intro st nf rk hG hps hnf hdisj
    refine ⟨hG, hnf, le_refl _, ?_⟩
    intro h
    simp [processFrontier] at h
  | p :: ps => by
    intro st nf rk hG hps hnf hdisj
    by_cases hv : vaccOf st p = true
    · have hred : processFrontier rand Re ssPct vaccPct maxNodes g (p :: ps) st nf rk =
          processFrontier rand Re ssPct vaccPct maxNodes g ps st nf rk := by
        simp [processFrontier, hv]
      rw [hred]
      exact processFrontier_inv rand Re ssPct vaccPct maxNodes g ps st nf rk hG hps.tail hnf
        (fun q hq => hdisj q (List.mem_cons_of_mem p hq))
    · obtain ⟨news, h1, h2, h3, h4, h5, h6, h7, h8, h9, h10⟩ :=
        addChildren_spec rand vaccPct maxNodes g p (decide (rand rk < ssPct / 100))
          (effectiveR Re (decide (rand rk < ssPct / 100))) st nf (rk + 1)
      have hstate :
          (addChildren rand vaccPct maxNodes g p (decide (rand rk < ssPct / 100))
              (effectiveR Re (decide (rand rk < ssPct / 100))) st nf (rk + 1)).1.1
            = extendState st p news :=
        TreeState.eq_of_fields h1 h2 h3
      have hmemp : p ∈ p :: ps := List.mem_cons_self p ps
      have hp_lt := hps.lt p hmemp
      have hp_vacc := hps.vacc p hmemp
      have hp_fresh := hps.fresh p hmemp
      have hGext : GraphInv maxNodes (extendState st p news) :=
        GraphInv_extend hG hp_lt hp_vacc hp_fresh h5 h6 (by
          have := h9 hG.bound
          omega)
      have hnfext : FrOk (extendState st p news)
          (nf ++ (news.filter (fun nd => !nd.vacc)).map (fun nd => nd.id)) :=
        FrOk_extend_new hnf hG.ids.id_lt hG.esrc hp_lt h5 hnf.lt (hdisj p hmemp)
      have hnewge : ∀ q ∈ (news.filter (fun nd => !nd.vacc)).map (fun nd => nd.id),
          st.nextId ≤ q := by
        intro q hq
        obtain ⟨c, hc, rfl⟩ := List.mem_map.mp hq
        exact (news_id_range h5 c (List.mem_filter.mp hc).1).1
      by_cases hflag :
          (addChildren rand vaccPct maxNodes g p (decide (rand rk < ssPct / 100))
            (effectiveR Re (decide (rand rk < ssPct / 100))) st nf (rk + 1)).2 = true
      · have hred : processFrontier rand Re ssPct vaccPct maxNodes g (p :: ps) st nf rk =
            addChildren rand vaccPct maxNodes g p (decide (rand rk < ssPct / 100))
              (effectiveR Re (decide (rand rk < ssPct / 100))) st nf (rk + 1) := by
          simp [processFrontier, hv, hflag]
        rw [hred, hstate, h4]
        refine ⟨hGext, hnfext, ?_, fun _ => ?_⟩
        · show st.nextId ≤ st.nextId + news.length
          omega
        · have := h7 hflag
          rw [hstate] at this
          exact this
      · have hred : processFrontier rand Re ssPct vaccPct maxNodes g (p :: ps) st nf rk =
            processFrontier rand Re ssPct vaccPct maxNodes g ps (extendState st p news)
              (nf ++ (news.filter (fun nd => !nd.vacc)).map (fun nd => nd.id))
              (addChildren rand vaccPct maxNodes g p (decide (rand rk < ssPct / 100))
                (effectiveR Re (decide (rand rk < ssPct / 100))) st nf (rk + 1)).1.2.2 := by
          conv =>
            lhs
            simp only [processFrontier]
          simp only [Bool.not_eq_true] at hflag
          simp only [hv, Bool.false_eq_true, if_false, hflag, hstate, h4]
        have hpsext : FrOk (extendState st p news) ps := by
          apply FrOk_extend_old hps.tail h5
          intro hmem
          have := List.rel_of_pairwise_cons hps.sorted hmem
          omega
        have hdisj' : ∀ q ∈ ps, q ∉ nf ++ (news.filter (fun nd => !nd.vacc)).map
            (fun nd => nd.id) := by
          intro q hq hqmem
          rcases List.mem_append.mp hqmem with h | h
          · exact hdisj q (List.mem_cons_of_mem p hq) h
          · have h1q := hnewge q h
            have h2q := hps.lt q (List.mem_cons_of_mem p hq)
            omega
        obtain ⟨hG', hfr', hmono, hflag'⟩ :=
          processFrontier_inv rand Re ssPct vaccPct maxNodes g ps (extendState st p news)
            (nf ++ (news.filter (fun nd => !nd.vacc)).map (fun nd => nd.id))
            (addChildren rand vaccPct maxNodes g p (decide (rand rk < ssPct / 100))
              (effectiveR Re (decide (rand rk < ssPct / 100))) st nf (rk + 1)).1.2.2
            hGext hpsext hnfext hdisj'
        rw [hred]
        refine ⟨hG', hfr', ?_, hflag'⟩
        have hext : st.nextId ≤ (extendState st p news).nextId := by
          show st.nextId ≤ st.nextId + news.length
          omega
        omega

theorem genLoop_inv (rand : ℕ → ℚ) (Re ssPct vaccPct : ℚ) (maxNodes : ℕ) :
    ∀ (rem g : ℕ) (fr : List ℕ) (st : TreeState) (rk : ℕ),
      GraphInv maxNodes st → FrOk st fr →
      GraphInv maxNodes (genLoop rand Re ssPct vaccPct maxNodes g rem fr st rk) := by
  intro rem
  induction rem with
  | zero =>
    intro g fr st rk hG _
    simpa [genLoop] using hG
  | succ r ih =>
    intro g fr st rk hG hfr
    have hnf0 : FrOk st ([] : List ℕ) :=
      ⟨by simp, by simp, by simp, List.Pairwise.nil⟩
    obtain ⟨hG', hfr', _, _⟩ :=
      processFrontier_inv rand Re ssPct vaccPct maxNodes g fr st [] rk hG hfr hnf0
        (by simp)
    by_cases hflag : (processFrontier rand Re ssPct vaccPct maxNodes g fr st [] rk).2 = true
    · have hred : genLoop rand Re ssPct vaccPct maxNodes g (r + 1) fr st rk =
          (processFrontier rand Re ssPct vaccPct maxNodes g fr st [] rk).1.1 := by
        simp [genLoop, hflag]
      rw [hred]
      exact hG'
    · have hred : genLoop rand Re ssPct vaccPct maxNodes g (r + 1) fr st rk =
          genLoop rand Re ssPct vaccPct maxNodes (g + 1) r
            (processFrontier rand Re ssPct vaccPct maxNodes g fr st [] rk).1.2.1
            (processFrontier rand Re ssPct vaccPct maxNodes g fr st [] rk).1.1
            (processFrontier rand Re ssPct vaccPct maxNodes g fr st [] rk).1.2.2 := by
        simp only [Bool.not_eq_true] at hflag
        simp [genLoop, hflag]
      rw [hred]
      exact ih (g + 1) _ _ _ hG' hfr'

/-- The invariants hold of every generated tree. -/
theorem generate_tree_inv (rand : ℕ → ℚ) (Re ssPct vaccPct : ℚ) (maxGen maxNodes : ℕ) :
    GraphInv maxNodes (generate_tree rand Re maxGen ssPct vaccPct maxNodes) := by
  apply genLoop_inv
  · refine ⟨?_, le_refl _, by show 1 ≤ maxNodes + 1; omega, ?_, by simp, by simp, by simp, ?_⟩
    · show [rootNode].map (fun nd => nd.id) = List.range' 0 1
      rfl
    · intro nd hnd _
      have : nd = rootNode := by simpa using hnd
      subst this
      exact ⟨rfl, rfl⟩
    · intro e he
      simp at he
  · refine ⟨?_, ?_, ?_, ?_⟩
    · intro p hp
      have : p = 0 := by simpa using hp
      show p < 1
      omega
    · intro p hp nd hnd _
      have : nd = rootNode := by simpa using hnd
      subst this
      rfl
    · intro p _ e he
      simp at he
    · simp

/-! ### The deterministic regime: no superspreaders, no vaccination

With `superspreader_pct = 0` and `vacc_pct = 0` every Bernoulli draw
fails (`np.random.rand()` is non-negative), so every parent produces
exactly `effectiveR Re false` children and every child joins the next
frontier. -/

theorem effectiveR_false (Re : ℚ) : effectiveR Re false = (max 1 (pyInt Re)).toNat := by
  simp [effectiveR]

theorem vaccOf_false_of_all {st : TreeState} (h : ∀ nd ∈ st.nodes, nd.vacc = false)
    (p : ℕ) : vaccOf st p = false := by
  rw [vaccOf]
  cases hf : st.nodes.find? (fun nd => nd.id == p) with
  | none => rfl
  | some nd =>
    simp only [Option.map_some', Option.getD_some]
    exact h nd (List.mem_of_find?_eq_some hf)

theorem vaccOf_extend {st : TreeState} {p q : ℕ} {news : List TransNode}
    (hids : news.map (fun nd => nd.id) = List.range' st.nextId news.length)
    (hq : q < st.nextId) :
    vaccOf (extendState st p news) q = vaccOf st q := by
  have hge := news_id_range hids
  have hnone : news.find? (fun nd => nd.id == q) = none := by
    rw [List.find?_eq_none]
    intro nd hnd
    have := (hge nd hnd).1
    simp only [beq_iff_eq]
    omega
  simp only [vaccOf, extendState, List.find?_append, hnone, Option.or_none]

theorem childCount_zero_of_src_bound {st : TreeState} {q : ℕ}
    (h : ∀ e ∈ st.edges, e.1 < st.nextId) (hq : st.nextId ≤ q) :
    childCount st q = 0 := by
  rw [childCount, List.length_eq_zero]
  rw [List.filter_eq_nil_iff]
  intro e he
  have := h e he
  simp only [beq_iff_eq]
  omega

theorem filter_map_pair_length (p q : ℕ) (news : List TransNode) :
    ((news.map (fun nd => (p, nd.id))).filter (fun e => e.1 == q)).length
      = if q = p then news.length else 0 := by
  induction news with
  | nil => simp
  | cons c cs ih =>
    by_cases h : q = p
    · subst h
      simp [List.filter_cons, ih]
    · have hpq : (p == q) = false := by
        simp only [beq_eq_false_iff_ne]
        omega
      simp [List.filter_cons, hpq, ih, h]

theorem childCount_extend {st : TreeState} {p q : ℕ} {news : List TransNode} :
    childCount (extendState st p news) q
      = childCount st q + (if q = p then news.length else 0) := by
  show ((st.edges ++ news.map (fun nd => (p, nd.id))).filter (fun e => e.1 == q)).length = _
  rw [List.filter_append, List.length_append, filter_map_pair_length]
  rfl

/-- Early return propagates a budget overflow: whenever the frontier loop
reports an early return, the final id counter exceeds the budget. -/
theorem processFrontier_flag (rand : ℕ → ℚ) (Re ssPct vaccPct : ℚ) (maxNodes g : ℕ) :
    ∀ (ps : List ℕ) (st : TreeState) (nf : List ℕ) (rk : ℕ),
      (processFrontier rand Re ssPct vaccPct maxNodes g ps st nf rk).2 = true →
      maxNodes < (processFrontier rand Re ssPct vaccPct maxNodes g ps st nf rk).1.1.nextId
  | [] => by
    intro st nf rk h
    simp [processFrontier] at h
  | p :: ps => by
    intro st nf rk h
    by_cases hv : vaccOf st p = true
    · have hred : processFrontier rand Re ssPct vaccPct maxNodes g (p :: ps) st nf rk =
          processFrontier rand Re ssPct vaccPct maxNodes g ps st nf rk := by
        simp [processFrontier, hv]
      rw [hred] at h ⊢
      exact processFrontier_flag rand Re ssPct vaccPct maxNodes g ps st nf rk h
    · obtain ⟨news, h1, h2, h3, h4, h5, h6, h7, h8, h9, h10⟩ :=
        addChildren_spec rand vaccPct maxNodes g p (decide (rand rk < ssPct / 100))
          (effectiveR Re (decide (rand rk < ssPct / 100))) st nf (rk + 1)
      by_cases haflag :
          (addChildren rand vaccPct maxNodes g p (decide (rand rk < ssPct / 100))
            (effectiveR Re (decide (rand rk < ssPct / 100))) st nf (rk + 1)).2 = true
      · have hred : processFrontier rand Re ssPct vaccPct maxNodes g (p :: ps) st nf rk =
            addChildren rand vaccPct maxNodes g p (decide (rand rk < ssPct / 100))
              (effectiveR Re (decide (rand rk < ssPct / 100))) st nf (rk + 1) := by
          simp [processFrontier, hv, haflag]
        rw [hred]
        exact h7 haflag
      · have hred : processFrontier rand Re ssPct vaccPct maxNodes g (p :: ps) st nf rk =
            processFrontier rand Re ssPct vaccPct maxNodes g ps
              (addChildren rand vaccPct maxNodes g p (decide (rand rk < ssPct / 100))
                (effectiveR Re (decide (rand rk < ssPct / 100))) st nf (rk + 1)).1.1
              (addChildren rand vaccPct maxNodes g p (decide (rand rk < ssPct / 100))
                (effectiveR Re (decide (rand rk < ssPct / 100))) st nf (rk + 1)).1.2.1
              (addChildren rand vaccPct maxNodes g p (decide (rand rk < ssPct / 100))
                (effectiveR Re (decide (rand rk < ssPct / 100))) st nf (rk + 1)).1.2.2 := by
          conv =>
            lhs
            simp only [processFrontier]
          simp only [Bool.not_eq_true] at haflag
          simp only [hv, Bool.false_eq_true, if_false, haflag]
        rw [hred] at h ⊢
        exact processFrontier_flag rand Re ssPct vaccPct maxNodes g ps _ _ _ h

/-- In the deterministic regime, one full frontier pass with no early
return creates exactly `effectiveR Re false` children for each parent in
the frontier and no child for anyone else, all in generation `g`, all
unvaccinated, all appended to the next frontier. -/
theorem processFrontier_det (rand : ℕ → ℚ) (h0 : ∀ k, 0 ≤ rand k) (Re : ℚ)
    (maxNodes g : ℕ) :
    ∀ (ps : List ℕ) (st : TreeState) (nf : List ℕ) (rk : ℕ),
      (∀ p ∈ ps, vaccOf st p = false) →
      (∀ p ∈ ps, p < st.nextId) →
      ps.Pairwise (· ≠ ·) →
      (processFrontier rand Re 0 0 maxNodes g ps st nf rk).2 = false →
      ∃ newNodes : List TransNode,
        (processFrontier rand Re 0 0 maxNodes g ps st nf rk).1.1.nodes
            = st.nodes ++ newNodes ∧
        (processFrontier rand Re 0 0 maxNodes g ps st nf rk).1.1.nextId
            = st.nextId + newNodes.length ∧
        newNodes.map (fun nd => nd.id) = List.range' st.nextId newNodes.length ∧
        (∀ nd ∈ newNodes, nd.generation = g ∧ nd.vacc = false) ∧
        (processFrontier rand Re 0 0 maxNodes g ps st nf rk).1.2.1
            = nf ++ newNodes.map (fun nd => nd.id) ∧
        (∀ q : ℕ, childCount (processFrontier rand Re 0 0 maxNodes g ps st nf rk).1.1 q
            = childCount st q + (if q ∈ ps then effectiveR Re false else 0)) ∧
        (∀ e ∈ (processFrontier rand Re 0 0 maxNodes g ps st nf rk).1.1.edges,
          e ∈ st.edges ∨ e.1 ∈ ps)
  | [] => by
    intro st nf rk _ _ _ _
    refine ⟨[], by simp [processFrontier], by simp [processFrontier],
      by simp, by simp, by simp [processFrontier], ?_, ?_⟩
    · intro q
      simp [processFrontier]
    · intro e he
      simp only [processFrontier] at he
      exact Or.inl he
  | p :: ps => by
    intro st nf rk hvacc hlt hnodup hflag
    have hv : vaccOf st p = false := hvacc p (List.mem_cons_self p ps)
    have hv' : ¬ vaccOf st p = true := by simp [hv]
    have hsup : decide (rand rk < (0 : ℚ) / 100) = false := by
      apply decide_eq_false
      rw [zero_div]
      exact not_lt.mpr (h0 rk)
    obtain ⟨news, h1, h2, h3, h4, h5, h6, h7, h8, h9, h10⟩ :=
      addChildren_spec rand 0 maxNodes g p (decide (rand rk < (0 : ℚ) / 100))
        (effectiveR Re (decide (rand rk < (0 : ℚ) / 100))) st nf (rk + 1)
    have hstate :
        (addChildren rand 0 maxNodes g p (decide (rand rk < (0 : ℚ) / 100))
            (effectiveR Re (decide (rand rk < (0 : ℚ) / 100))) st nf (rk + 1)).1.1
          = extendState st p news :=
      TreeState.eq_of_fields h1 h2 h3
    by_cases haflag :
        (addChildren rand 0 maxNodes g p (decide (rand rk < (0 : ℚ) / 100))
          (effectiveR Re (decide (rand rk < (0 : ℚ) / 100))) st nf (rk + 1)).2 = true
    · exfalso
      have hout : (processFrontier rand Re 0 0 maxNodes g (p :: ps) st nf rk).2 = true := by
        conv =>
          lhs
          simp only [processFrontier]
        simp only [hv, Bool.false_eq_true, if_false, haflag, eq_self_iff_true, if_true]
      rw [hout] at hflag
      exact absurd hflag (by simp)
    · have hvaccnews : ∀ nd ∈ news, nd.vacc = false := h10 rfl h0
      have hlen : news.length = effectiveR Re false := by
        have := h8 (by simpa using haflag)
        rwa [hsup] at this
      have hfilter : news.filter (fun nd => !nd.vacc) = news :=
        List.filter_eq_self.mpr (fun nd hnd => by simp [hvaccnews nd hnd])
      have hred : processFrontier rand Re 0 0 maxNodes g (p :: ps) st nf rk =
          processFrontier rand Re 0 0 maxNodes g ps (extendState st p news)
            (nf ++ news.map (fun nd => nd.id))
            (addChildren rand 0 maxNodes g p (decide (rand rk < (0 : ℚ) / 100))
              (effectiveR Re (decide (rand rk < (0 : ℚ) / 100))) st nf (rk + 1)).1.2.2 := by
        conv =>
          lhs
          simp only [processFrontier]
        simp only [Bool.not_eq_true] at haflag
        simp only [hv, Bool.false_eq_true, if_false, haflag, hstate, h4, hfilter]
      have hvacc' : ∀ p' ∈ ps, vaccOf (extendState st p news) p' = false := by
        intro p' hp'
        rw [vaccOf_extend h5 (hlt p' (List.mem_cons_of_mem p hp'))]
        exact hvacc p' (List.mem_cons_of_mem p hp')
      have hlt' : ∀ p' ∈ ps, p' < (extendState st p news).nextId := by
        intro p' hp'
        have := hlt p' (List.mem_cons_of_mem p hp')
        show p' < st.nextId + news.length
        omega
      have hflag' : (processFrontier rand Re 0 0 maxNodes g ps (extendState st p news)
          (nf ++ news.map (fun nd => nd.id))
          (addChildren rand 0 maxNodes g p (decide (rand rk < (0 : ℚ) / 100))
            (effectiveR Re (decide (rand rk < (0 : ℚ) / 100))) st nf (rk + 1)).1.2.2).2
          = false := by
        rw [← hred]
        exact hflag
      obtain ⟨rest, g1, g2, g3, g4, g5, g6, g7⟩ :=
        processFrontier_det rand h0 Re maxNodes g ps (extendState st p news)
          (nf ++ news.map (fun nd => nd.id))
          (addChildren rand 0 maxNodes g p (decide (rand rk < (0 : ℚ) / 100))
            (effectiveR Re (decide (rand rk < (0 : ℚ) / 100))) st nf (rk + 1)).1.2.2
          hvacc' hlt' hnodup.of_cons hflag'
      have hpnotps : p ∉ ps := by
        intro hmem
        exact absurd rfl (List.rel_of_pairwise_cons hnodup hmem)
      refine ⟨news ++ rest, ?_, ?_, ?_, ?_, ?_, ?_, ?_⟩
      · rw [hred, g1]
        show (st.nodes ++ news) ++ rest = st.nodes ++ (news ++ rest)
        rw [List.append_assoc]
      · rw [hred, g2]
        show st.nextId + news.length + rest.length = st.nextId + (news ++ rest).length
        rw [List.length_append]
        omega
      · rw [List.map_append, h5, g3]
        show List.range' st.nextId news.length ++
            List.range' (st.nextId + news.length) rest.length = _
        rw [List.range'_append_1, List.length_append, Nat.add_comm rest.length]
      · intro nd hnd
        rcases List.mem_append.mp hnd with h | h
        · exact ⟨(h6 nd h).1, hvaccnews nd h⟩
        · exact g4 nd h
      · rw [hred, g5, List.map_append, List.append_assoc]
      · intro q
        rw [hred, g6 q]
        have hext : childCount (extendState st p news) q
            = childCount st q + (if q = p then news.length else 0) := childCount_extend
        rw [hext, hlen]
        by_cases hq : q = p
        · subst hq
          simp [hpnotps, List.mem_cons]
        · by_cases hqs : q ∈ ps
          · simp [hq, hqs, List.mem_cons]
          · simp [hq, hqs, List.mem_cons]
      · intro e he
        rw [hred] at he
        rcases g7 e he with h | h
        · rcases List.mem_append.mp h with h' | h'
          · exact Or.inl h'
          · obtain ⟨c, _, rfl⟩ := List.mem_map.mp h'
            exact Or.inr (List.mem_cons_self p ps)
        · exact Or.inr (List.mem_cons_of_mem p h)

/-- In the deterministic regime, as long as the node budget is never hit,
every node of an already-completed generation has exactly
`effectiveR Re false` children. -/
theorem genLoop_det (rand : ℕ → ℚ) (h0 : ∀ k, 0 ≤ rand k) (Re : ℚ) (maxNodes : ℕ) :
    ∀ (rem g : ℕ) (fr : List ℕ) (st : TreeState) (rk : ℕ),
      IdsInv st →
      (∀ nd ∈ st.nodes, nd.vacc = false) →
      (∀ nd ∈ st.nodes, nd.generation ≤ g) →
      (∀ nd ∈ st.nodes, nd.generation < g → childCount st nd.id = effectiveR Re false) →
      (∀ nd ∈ st.nodes, nd.generation = g → childCount st nd.id = 0) →
      (∀ e ∈ st.edges, e.1 < st.nextId) →
      fr = (st.nodes.filter (fun nd => nd.generation == g)).map (fun nd => nd.id) →
      (genLoop rand Re 0 0 maxNodes (g + 1) rem fr st rk).nextId ≤ maxNodes →
      ∀ nd ∈ (genLoop rand Re 0 0 maxNodes (g + 1) rem fr st rk).nodes,
        nd.generation < g + rem →
        childCount (genLoop rand Re 0 0 maxNodes (g + 1) rem fr st rk) nd.id
          = effectiveR Re false := by
  intro rem
  induction rem with
  | zero =>
    intro g fr st rk hids hvacc hgle hclt hceq hesrc hfr hbound nd hnd hg
    simp only [genLoop] at hnd hg ⊢
    exact hclt nd hnd (by omega)
  | succ r ih =>
    intro g fr st rk hids hvacc hgle hclt hceq hesrc hfr hbound
    have hinj : ∀ a ∈ st.nodes, ∀ b ∈ st.nodes, a.id = b.id → a = b :=
      List.inj_on_of_nodup_map (by rw [hids]; exact List.nodup_range' _ _)
    have hfr_vacc : ∀ p ∈ fr, vaccOf st p = false := fun p _ => vaccOf_false_of_all hvacc p
    have hfr_lt : ∀ p ∈ fr, p < st.nextId := by
      intro p hp
      rw [hfr] at hp
      obtain ⟨nd, hnd, rfl⟩ := List.mem_map.mp hp
      exact hids.id_lt nd (List.mem_of_mem_filter hnd)
    have hfr_nodup : fr.Pairwise (· ≠ ·) := by
      have hsub : List.Sublist
          ((st.nodes.filter (fun nd => nd.generation == g)).map (fun nd => nd.id))
          (st.nodes.map (fun nd => nd.id)) := (List.filter_sublist _).map _
      rw [hids] at hsub
      rw [hfr]
      exact (List.nodup_range' _ _).sublist hsub
    by_cases hflag : (processFrontier rand Re 0 0 maxNodes (g + 1) fr st [] rk).2 = true
    · exfalso
      have hover := processFrontier_flag rand Re 0 0 maxNodes (g + 1) fr st [] rk hflag
      have hred : genLoop rand Re 0 0 maxNodes (g + 1) (r + 1) fr st rk
          = (processFrontier rand Re 0 0 maxNodes (g + 1) fr st [] rk).1.1 := by
        simp [genLoop, hflag]
      rw [hred] at hbound
      omega
    · have hflag' : (processFrontier rand Re 0 0 maxNodes (g + 1) fr st [] rk).2 = false := by
        simpa using hflag
      obtain ⟨news, g1, g2, g3, g4, g5, g6, g7⟩ :=
        processFrontier_det rand h0 Re maxNodes (g + 1) fr st [] rk hfr_vacc hfr_lt
          hfr_nodup hflag'
      have hred : genLoop rand Re 0 0 maxNodes (g + 1) (r + 1) fr st rk
          = genLoop rand Re 0 0 maxNodes (g + 1 + 1) r
              (processFrontier rand Re 0 0 maxNodes (g + 1) fr st [] rk).1.2.1
              (processFrontier rand Re 0 0 maxNodes (g + 1) fr st [] rk).1.1
              (processFrontier rand Re 0 0 maxNodes (g + 1) fr st [] rk).1.2.2 := by
        simp [genLoop, hflag']
      have hnews_ge : ∀ nd ∈ news, st.nextId ≤ nd.id ∧ nd.id < st.nextId + news.length :=
        news_id_range g3
      -- the hypotheses of the induction at generation g + 1
      have hids1 : IdsInv (processFrontier rand Re 0 0 maxNodes (g + 1) fr st [] rk).1.1 := by
        show _ = List.range' 0 _
        rw [g1, g2, List.map_append, hids, g3]
        have := List.range'_append_1 0 st.nextId news.length
        simp only [Nat.zero_add] at this
        rw [this, Nat.add_comm news.length st.nextId]
      have hvacc1 : ∀ nd ∈ (processFrontier rand Re 0 0 maxNodes
          (g + 1) fr st [] rk).1.1.nodes, nd.vacc = false := by
        rw [g1]
        intro nd hnd
        rcases List.mem_append.mp hnd with h | h
        · exact hvacc nd h
        · exact (g4 nd h).2
      have hgle1 : ∀ nd ∈ (processFrontier rand Re 0 0 maxNodes
          (g + 1) fr st [] rk).1.1.nodes, nd.generation ≤ g + 1 := by
        rw [g1]
        intro nd hnd
        rcases List.mem_append.mp hnd with h | h
        · have := hgle nd h
          omega
        · rw [(g4 nd h).1]
      have hmemfr : ∀ q : ℕ, q ∈ fr ↔
          ∃ nd ∈ st.nodes, nd.generation = g ∧ nd.id = q := by
        intro q
        rw [hfr]
        constructor
        · intro hq
          obtain ⟨nd, hnd, rfl⟩ := List.mem_map.mp hq
          have h1 := List.mem_of_mem_filter hnd
          have h2 := List.of_mem_filter hnd
          exact ⟨nd, h1, by simpa using h2, rfl⟩
        · rintro ⟨nd, hnd, hgen, rfl⟩
          exact List.mem_map_of_mem _ (List.mem_filter.mpr ⟨hnd, by simpa using hgen⟩)
      have hclt1 : ∀ nd ∈ (processFrontier rand Re 0 0 maxNodes
          (g + 1) fr st [] rk).1.1.nodes, nd.generation < g + 1 →
          childCount (processFrontier rand Re 0 0 maxNodes (g + 1) fr st [] rk).1.1 nd.id
            = effectiveR Re false := by
        rw [g1]
        intro nd hnd hg
        rcases List.mem_append.mp hnd with h | h
        · rw [g6 nd.id]
          by_cases hgg : nd.generation = g
          · have hmem : nd.id ∈ fr := (hmemfr nd.id).mpr ⟨nd, h, hgg, rfl⟩
            rw [hceq nd h hgg, if_pos hmem]
            omega
          · have hglt : nd.generation < g := by
              have := hgle nd h
              omega
            have hnmem : nd.id ∉ fr := by
              intro hmem
              obtain ⟨nd', hnd', hgen', hid'⟩ := (hmemfr nd.id).mp hmem
              have := hinj nd' hnd' nd h hid'
              subst this
              omega
            rw [hclt nd h hglt, if_neg hnmem]
            omega
        · have := (g4 nd h).1
          omega
      have hceq1 : ∀ nd ∈ (processFrontier rand Re 0 0 maxNodes
          (g + 1) fr st [] rk).1.1.nodes, nd.generation = g + 1 →
          childCount (processFrontier rand Re 0 0 maxNodes (g + 1) fr st [] rk).1.1 nd.id
            = 0 := by
        rw [g1]
        intro nd hnd hg
        rcases List.mem_append.mp hnd with h | h
        · have := hgle nd h
          omega
        · rw [g6 nd.id]
          have hge := (hnews_ge nd h).1
          have hzero : childCount st nd.id = 0 :=
            childCount_zero_of_src_bound hesrc hge
          have hnmem : nd.id ∉ fr := by
            intro hmem
            have := hfr_lt nd.id hmem
            omega
          rw [hzero, if_neg hnmem]
      have hesrc1 : ∀ e ∈ (processFrontier rand Re 0 0 maxNodes
          (g + 1) fr st [] rk).1.1.edges,
          e.1 < (processFrontier rand Re 0 0 maxNodes (g + 1) fr st [] rk).1.1.nextId := by
        intro e he
        rw [g2]
        rcases g7 e he with h | h
        · have := hesrc e h
          omega
        · have := hfr_lt e.1 h
          omega
      have hfr1 : (processFrontier rand Re 0 0 maxNodes (g + 1) fr st [] rk).1.2.1
          = ((processFrontier rand Re 0 0 maxNodes
              (g + 1) fr st [] rk).1.1.nodes.filter
                (fun nd => nd.generation == g + 1)).map (fun nd => nd.id) := by
        rw [g5, g1, List.filter_append]
        have hnilold : st.nodes.filter (fun nd => nd.generation == g + 1) = [] := by
          rw [List.filter_eq_nil_iff]
          intro nd hnd
          have := hgle nd hnd
          simp only [beq_iff_eq]
          omega
        have hallnew : news.filter (fun nd => nd.generation == g + 1) = news := by
          apply List.filter_eq_self.mpr
          intro nd hnd
          simp [(g4 nd hnd).1]
        rw [hnilold, hallnew, List.nil_append, List.nil_append]
      have hbound1 : (genLoop rand Re 0 0 maxNodes (g + 1 + 1) r
          (processFrontier rand Re 0 0 maxNodes (g + 1) fr st [] rk).1.2.1
          (processFrontier rand Re 0 0 maxNodes (g + 1) fr st [] rk).1.1
          (processFrontier rand Re 0 0 maxNodes (g + 1) fr st [] rk).1.2.2).nextId
            ≤ maxNodes := by
        rw [← hred]
        exact hbound
      intro nd hnd hg
      rw [hred] at hnd ⊢
      exact ih (g + 1) _ _ _ hids1 hvacc1 hgle1 hclt1 hceq1 hesrc1 hfr1 hbound1 nd hnd
        (by omega)

theorem sibSuperCheck_of_inv {st : TreeState} (h : SibInv st) : sibSuperCheck st = true := by
  rw [sibSuperCheck, List.all_eq_true]
  intro e1 he1
  rw [List.all_eq_true]
  intro e2 he2
  by_cases hsrc : e1.1 = e2.1
  · have hinner : (st.nodes.all fun n1 => st.nodes.all fun n2 =>
        !(n1.id == e1.2) || !(n2.id == e2.2) || (n1.super == n2.super)) = true := by
      rw [List.all_eq_true]
      intro n1 hn1
      rw [List.all_eq_true]
      intro n2 hn2
      by_cases h1 : n1.id = e1.2
      · by_cases h2 : n2.id = e2.2
        · have := h e1 he1 e2 he2 hsrc n1 hn1 n2 hn2 h1 h2
          simp [this]
        · simp [h2]
      · simp [h1]
    simp [hinner]
  · simp [hsrc]

theorem rootAttrCheck_of_inv {st : TreeState}
    (h : ∀ nd ∈ st.nodes, nd.id = 0 → nd.super = false ∧ nd.vacc = false) :
    rootAttrCheck st = true := by
  rw [rootAttrCheck, List.all_eq_true]
  intro nd hnd
  by_cases h0 : nd.id = 0
  · have := h nd hnd h0
    simp [this.1, this.2]
  · simp [h0]

/-! ### Claim theorems for the transmission tree -/

/-- C1 counterexample: with `Re = 5`, one generation and `max_nodes = 3`
(stream irrelevant since both probabilities are 0), the budget check
`next_id > max_nodes` admits ids `1, 2, 3`, so the returned tree has
**4** nodes — the claimed bound `total ≤ max_nodes = 3` fails. -/
theorem C1_budget_counterexample :
    (generate_tree (fun _ => 1/2) 5 1 0 0 3).nodes.length = 4 ∧
    ¬ ((generate_tree (fun _ => 1/2) 5 1 0 0 3).nodes.length ≤ 3) := by
  have h : (generate_tree (fun _ => 1/2) 5 1 0 0 3).nodes.length = 4 := by
    norm_num [generate_tree, genLoop, processFrontier, addChildren, effectiveR, vaccOf,
      pyInt, rootNode]
  exact ⟨h, by rw [h]; norm_num⟩

/-- C1 (amended): for every call to the transmission-tree generator, the
total number of nodes in the returned tree is at most `max_nodes + 1`
(the root plus at most `max_nodes` infection cases — the budget check
`next_id > max_nodes` lets ids run up to `max_nodes` inclusive);
generation expansion halts at the first creation attempt beyond that,
yielding a possibly-incomplete final generation. -/
theorem C1_node_budget_amended (rand : ℕ → ℚ) (Re ssPct vaccPct : ℚ)
    (maxGen maxNodes : ℕ) :
    (generate_tree rand Re maxGen ssPct vaccPct maxNodes).nodes.length ≤ maxNodes + 1 := by
  have hG := generate_tree_inv rand Re ssPct vaccPct maxGen maxNodes
  have hlen : (generate_tree rand Re maxGen ssPct vaccPct maxNodes).nodes.length
      = (generate_tree rand Re maxGen ssPct vaccPct maxNodes).nextId := by
    have h := congrArg List.length hG.ids
    simpa using h
  rw [hlen]
  exact hG.bound

/-- C2 counterexample: the claim says a (non-superspreader) node expanded
within budget gets `max(1, round(Re))` children.  At `Re = 8/5` the code
computes `max(1, int(1.6)) = 1` child for the root, not
`max(1, round(1.6)) = 2`: the code truncates, it does not round.  Here
the root has generation `0 < max_generations = 1` and the budget is
untouched (`next_id` ends at `2 ≤ 2000`). -/
theorem C2_round_counterexample :
    childCount (generate_tree (fun _ => 1/2) (8/5) 1 0 0 2000) 0 = 1 ∧
    (generate_tree (fun _ => 1/2) (8/5) 1 0 0 2000).nextId = 2 ∧
    (max 1 (round ((8 : ℚ)/5)) : ℤ) = 2 ∧ (1 : ℤ) ≠ 2 := by
  refine ⟨?_, ?_, ?_, by norm_num⟩
  · norm_num [generate_tree, genLoop, processFrontier, addChildren, effectiveR, vaccOf,
      pyInt, rootNode, childCount]
  · norm_num [generate_tree, genLoop, processFrontier, addChildren, effectiveR, vaccOf,
      pyInt, rootNode]
  · rw [round_eq]
    norm_num

/-- C2 (amended): for every tree generated with
`superspreader_probability = 0` and `vaccination_probability = 0` from a
non-negative random stream, provided the node budget is not reached
during expansion, every node at a generation `g < max_generations` has
exactly `max(1, int(Re))` children — `int` being Python truncation toward
zero, not rounding; generally the effective onward-transmission count is
`max(1, int(Re × (3 if superspreader else 1)))`. -/
theorem C2_children_count_amended (rand : ℕ → ℚ) (h0 : ∀ k, 0 ≤ rand k) (Re : ℚ)
    (maxGen maxNodes : ℕ)
    (hbudget : (generate_tree rand Re maxGen 0 0 maxNodes).nextId ≤ maxNodes) :
    ∀ nd ∈ (generate_tree rand Re maxGen 0 0 maxNodes).nodes,
      nd.generation < maxGen →
      childCount (generate_tree rand Re maxGen 0 0 maxNodes) nd.id
        = (max 1 (pyInt Re)).toNat := by
  intro nd hnd hg
  rw [← effectiveR_false]
  have hfr0 : ([0] : List ℕ)
      = (([rootNode] : List TransNode).filter
          (fun nd => nd.generation == 0)).map (fun nd => nd.id) := rfl
  exact genLoop_det rand h0 Re maxNodes maxGen 0 [0] ⟨[rootNode], [], 1⟩ 0
    rfl (by intro nd hnd; simp at hnd; simp [hnd, rootNode])
    (by intro nd hnd; simp at hnd; simp [hnd, rootNode])
    (by intro nd _ h; omega)
    (by intro nd _ _; rfl)
    (by intro e he; simp at he)
    hfr0 hbudget nd hnd (by omega)

/-- Witness for C2 (amended): `rand ≡ 1/2`, `Re = 2`, two generations,
budget 2000; the tree is the full binary tree on 7 nodes and every node
of generations 0 and 1 has exactly `max(1, int(2)) = 2` children. -/
theorem C2_children_count_witness :
    (∀ k : ℕ, (0 : ℚ) ≤ (fun _ => (1 : ℚ)/2) k) ∧
    (generate_tree (fun _ => (1 : ℚ)/2) 2 2 0 0 2000).nextId ≤ 2000 ∧
    (∀ nd ∈ (generate_tree (fun _ => (1 : ℚ)/2) 2 2 0 0 2000).nodes,
      nd.generation < 2 →
      childCount (generate_tree (fun _ => (1 : ℚ)/2) 2 2 0 0 2000) nd.id
        = (max 1 (pyInt 2)).toNat) := by
  have hb : (generate_tree (fun _ => (1 : ℚ)/2) 2 2 0 0 2000).nextId ≤ 2000 := by
    norm_num [generate_tree, genLoop, processFrontier, addChildren, effectiveR, vaccOf,
      pyInt, rootNode]
  exact ⟨fun k => by norm_num, hb,
    C2_children_count_amended (fun _ => (1 : ℚ)/2) (fun k => by norm_num) 2 2 2000 hb⟩

/-- C3: in every tree returned by the transmission-tree generator — for
every random stream and every parameter choice — no vaccinated node has an
outgoing edge: every source of an edge refers to a node whose `vacc`
attribute is false. -/
theorem C3_vaccinated_no_children (rand : ℕ → ℚ) (Re ssPct vaccPct : ℚ)
    (maxGen maxNodes : ℕ) :
    vaccLeafCheck (generate_tree rand Re maxGen ssPct vaccPct maxNodes) = true := by
  have hG := generate_tree_inv rand Re ssPct vaccPct maxGen maxNodes
  rw [vaccLeafCheck, List.all_eq_true]
  intro e he
  rw [List.all_eq_true]
  intro nd hnd
  by_cases h : nd.id = e.1
  · have := hG.evacc e he nd hnd h
    simp [this]
  · simp [h]

set_option maxHeartbeats 4000000 in
/-- C10: (universal part) in every generated tree all children of one
parent carry an identical `is_superspreader` attribute — the parent's
single per-expansion draw — and the root's attribute is always false;
(demonstration part) a node's stored attribute is not consulted when the
node is expanded: with the stream that draws a superspreader only at the
root's expansion, node 1 is stored with `super = true` (6 = max(1,int(2·3))
siblings), yet it produces only `max(1, int(2)) = 2` children because its
own expansion re-draws afresh. -/
theorem C10_superspreader_draws :
    (∀ (rand : ℕ → ℚ) (Re ssPct vaccPct : ℚ) (maxGen maxNodes : ℕ),
      sibSuperCheck (generate_tree rand Re maxGen ssPct vaccPct maxNodes) = true ∧
      rootAttrCheck (generate_tree rand Re maxGen ssPct vaccPct maxNodes) = true) ∧
    ((generate_tree (fun k => if k = 0 then 0 else 1) 2 2 50 0 2000).nodes.getD 1
        ⟨0, 0, none, false, false⟩
      = ⟨1, 1, some 0, false, true⟩) ∧
    childCount (generate_tree (fun k => if k = 0 then 0 else 1) 2 2 50 0 2000) 1 = 2 ∧
    effectiveR 2 true = 6 ∧ effectiveR 2 false = 2 := by
  refine ⟨?_, ?_, ?_, ?_, ?_⟩
  · intro rand Re ssPct vaccPct maxGen maxNodes
    have hG := generate_tree_inv rand Re ssPct vaccPct maxGen maxNodes
    exact ⟨sibSuperCheck_of_inv hG.sib, rootAttrCheck_of_inv hG.root⟩
  · norm_num [generate_tree, genLoop, processFrontier, addChildren, effectiveR, vaccOf,
      pyInt, rootNode]
  · norm_num [generate_tree, genLoop, processFrontier, addChildren, effectiveR, vaccOf,
      pyInt, rootNode, childCount]
  · norm_num [effectiveR, pyInt]
    rfl
  · norm_num [effectiveR, pyInt]
    rfl

/-! ## TreeLayoutEngine

`layout_hierarchy` from `src/pages/4_Spread_Visualization.py` lines
236-245 (the copy `hierarchical` in `3_Vaccine_Impact.py` lines 303-312 is
the special case `horiz = vert = 1`). -/

/-- `np.linspace(a, b, num)` (endpoint included) in exact arithmetic:
`num` evenly spaced samples from `a` to `b`; a single sample sits at `a`,
zero samples give the empty array. -/
def linspace (a b : ℚ) : ℕ → List ℚ
  | 0 => []
  | 1 => [a]
  | n + 2 => (List.range (n + 2)).map
      (fun (i : ℕ) => a + (b - a) * (i : ℚ) / ((n : ℚ) + 1))

/-- The nodes of generation `g` in insertion order — the list
`gens[g]` that the Python layout builds by iterating `G.nodes(data=True)`. -/
def genNodes (nodes : List TransNode) (g : ℕ) : List TransNode :=
  nodes.filter (fun nd => nd.generation == g)

/-- The hierarchical layout restricted to generation `g`: its nodes in
insertion order paired with their positions `(xs[i], -gen * vert)` where
`xs = np.linspace(-horiz, horiz, len(nodes))`.  The Python `pos` dict is
the disjoint union of these lists over all generations present. -/
def layout_hierarchy (nodes : List TransNode) (horiz vert : ℚ) (g : ℕ) :
    List (ℕ × ℚ × ℚ) :=
  let ns := genNodes nodes g
  (ns.zip (linspace (-horiz) horiz ns.length)).map
    (fun pr => (pr.1.id, pr.2, -(g : ℚ) * vert))

theorem linspace_length (a b : ℚ) : ∀ n, (linspace a b n).length = n
  | 0 => rfl
  | 1 => rfl
  | n + 2 => by simp [linspace]

theorem linspace_mem_bounds {a b : ℚ} (hab : a ≤ b) :
    ∀ n, ∀ x ∈ linspace a b n, a ≤ x ∧ x ≤ b
  | 0, x, hx => by simp [linspace] at hx
  | 1, x, hx => by
    have hxa : x = a := by simpa [linspace] using hx
    rw [hxa]
    exact ⟨le_refl a, hab⟩
  | n + 2, x, hx => by
    simp only [linspace, List.mem_map, List.mem_range] at hx
    obtain ⟨i, hi, rfl⟩ := hx
    have hc : (0 : ℚ) ≤ b - a := by linarith
    have hd : (0 : ℚ) < (n : ℚ) + 1 := by positivity
    have hi' : (i : ℚ) ≤ (n : ℚ) + 1 := by
      have : i ≤ n + 1 := by omega
      exact_mod_cast this
    constructor
    · have ht : 0 ≤ (b - a) * i / (n + 1) :=
        div_nonneg (mul_nonneg hc (by positivity)) (le_of_lt hd)
      linarith
    · have ht : (b - a) * i / (n + 1) ≤ b - a := by
        rw [div_le_iff₀ hd]
        calc (b - a) * i ≤ (b - a) * ((n : ℚ) + 1) :=
              mul_le_mul_of_nonneg_left hi' hc
          _ = (b - a) * (n + 1) := by ring
      linarith

theorem linspace_pairwise {a b : ℚ} (hab : a < b) :
    ∀ n, (linspace a b n).Pairwise (· < ·)
  | 0 => List.Pairwise.nil
  | 1 => by simp [linspace]
  | n + 2 => by
    simp only [linspace]
    rw [List.pairwise_map]
    have hd : (0 : ℚ) < (n : ℚ) + 1 := by positivity
    have hc : (0 : ℚ) < b - a := by linarith
    apply List.Pairwise.imp ?_ (List.pairwise_lt_range (n + 2))
    intro i j hij
    have hij' : (i : ℚ) < (j : ℚ) := by exact_mod_cast hij
    have ht : (b - a) * i / (n + 1) < (b - a) * j / (n + 1) := by
      apply div_lt_div_of_pos_right ?_ hd
      exact mul_lt_mul_of_pos_left hij' hc
    linarith

theorem zip_map_snd {α β : Type} : ∀ (l1 : List α) (l2 : List β),
    l1.length = l2.length → (l1.zip l2).map (fun pr => pr.2) = l2
  | [], [], _ => rfl
  | [], b :: bs, h => by simp at h
  | a :: as, [], h => by simp at h
  | a :: as, b :: bs, h => by
    simp only [List.zip_cons_cons, List.map_cons]
    rw [zip_map_snd as bs (by simpa using h)]

/-- The x-coordinates assigned to generation `g` are exactly the linspace
samples. -/
theorem layout_hierarchy_xs (nodes : List TransNode) (horiz vert : ℚ) (g : ℕ) :
    (layout_hierarchy nodes horiz vert g).map (fun q => q.2.1)
      = linspace (-horiz) horiz (genNodes nodes g).length := by
  rw [layout_hierarchy, List.map_map]
  exact zip_map_snd _ _ (by rw [linspace_length])

/-- C9: for every tree and positive horizontal spacing (the UI slider
ranges over `[0.2, 3.0]`), the hierarchical layout places all nodes of
generation `g` at the same y-coordinate `-g * vertical_spacing`, at
pairwise-distinct x-coordinates lying within
`[-horizontal_spacing, horizontal_spacing]`; it is a total function (in
particular generations of zero or one node are laid out without error,
one position per node) and deterministic. -/
theorem C9_hierarchical_layout (nodes : List TransNode) (horiz vert : ℚ) (g : ℕ)
    (hh : 0 < horiz) :
    (∀ q ∈ layout_hierarchy nodes horiz vert g, q.2.2 = -(g : ℚ) * vert) ∧
    ((layout_hierarchy nodes horiz vert g).map (fun q => q.2.1)).Nodup ∧
    (∀ q ∈ layout_hierarchy nodes horiz vert g, -horiz ≤ q.2.1 ∧ q.2.1 ≤ horiz) ∧
    (layout_hierarchy nodes horiz vert g).length = (genNodes nodes g).length := by
  have hle : -horiz ≤ horiz := by linarith
  have hlt : -horiz < horiz := by linarith
  refine ⟨?_, ?_, ?_, ?_⟩
  · intro q hq
    rw [layout_hierarchy, List.mem_map] at hq
    obtain ⟨pr, _, rfl⟩ := hq
    rfl
  · rw [layout_hierarchy_xs]
    exact ((linspace_pairwise hlt _).imp ne_of_lt)
  · intro q hq
    rw [layout_hierarchy, List.mem_map] at hq
    obtain ⟨pr, hpr, rfl⟩ := hq
    have hx : pr.2 ∈ linspace (-horiz) horiz (genNodes nodes g).length :=
      (List.of_mem_zip hpr).2
    exact linspace_mem_bounds hle _ pr.2 hx
  · rw [layout_hierarchy, List.length_map, List.length_zip, linspace_length]
    exact Nat.min_self _

/-- Concrete tree for the C9 witness: a root and two first-generation
children. -/
def c9nodes : List TransNode :=
  [⟨0, 0, none, false, false⟩, ⟨1, 1, some 0, false, false⟩, ⟨2, 1, some 0, false, false⟩]

/-- Witness for C9 at a two-node generation with unit spacings. -/
theorem C9_hierarchical_layout_witness :
    (0 : ℚ) < 1 ∧
    ((∀ q ∈ layout_hierarchy c9nodes 1 1 1, q.2.2 = -((1 : ℕ) : ℚ) * 1) ∧
      ((layout_hierarchy c9nodes 1 1 1).map (fun q => q.2.1)).Nodup ∧
      (∀ q ∈ layout_hierarchy c9nodes 1 1 1, -(1 : ℚ) ≤ q.2.1 ∧ q.2.1 ≤ 1) ∧
      (layout_hierarchy c9nodes 1 1 1).length = (genNodes c9nodes 1).length) :=
  ⟨by norm_num, C9_hierarchical_layout c9nodes 1 1 1 (by norm_num)⟩

end CommDisease
